import Mathlib

/-!
# Shared-counter increment programs: `race.cpp`, `mutex.cpp`, `semaphore.cpp`

Each program starts `THREADS` workers that run the same loop

    for (int x = 0; x < 10000000; x++) { [acquire;] shared = shared + 1; [release;] }

on one global `unsigned long int shared`, joins them and prints the counter.

The embedding is an interleaving semantics.  A worker is a control point, its
loop variable `x` and the register that holds the value loaded from `shared`
(`shared = shared + 1` is a load followed by a store, two separate steps).  A
state is the counter, the guard object and the list of workers.  One step of
the system is one step of one worker; a schedule is the list of worker indices
chosen by the scheduler, and a blocked or finished worker that is chosen leaves
the state unchanged.

The worker count and the loop bound are the constants `THREADS` and
`ITERATIONS` in the sources; the step functions take them as parameters `n`
and `m` so that the properties can be stated for every value.  The counter is
an `unsigned long`, modelled as a natural number reduced modulo `2 ^ 64` at
every store.  The loop variable `x` is an `int` that counts from 0 up to the
loop bound, itself an `int`, so it never overflows; it is a natural number
here.  The primitives of the threading runtime (`pthread_mutex_*`,
`dispatch_semaphore_*`) are not part of the sources; they are modelled from the
specification (sections 4.3 and 4.4): a lock flag whose acquire blocks while
the lock is held, and a permit count whose wait blocks while the count is zero.
-/

namespace Threads

/-- The worker count, `#define THREADS 5`. -/
def THREADS : Nat := 5

/-- The loop bound `10000000` of every worker. -/
def ITERATIONS : Nat := 10000000

/-- Number of values of `unsigned long int` (LP64). -/
def ULONG_MOD : Nat := 2 ^ 64

/-- Control points of a worker: the loop test `x < m`, the acquire call, the
load of `shared`, the store to `shared`, the release call, the loop increment
`x++`, and `return NULL`. -/
inductive PC where
  | test
  | acquire
  | read
  | write
  | release
  | incr
  | done
deriving DecidableEq

/-- A worker thread: control point, loop variable `x`, and the register that
holds the value it loaded from `shared`. -/
structure Worker where
  pc : PC
  x : Nat
  reg : Nat
deriving DecidableEq

/-- The guard object of a program: none in `race.cpp`, the `pthread_mutex_t`
of `mutex.cpp` (its lock flag), the `dispatch_semaphore_t` of `semaphore.cpp`
(its permit count). -/
inductive Guard where
  | none
  | mutex (locked : Bool)
  | semaphore (count : Nat)
deriving DecidableEq

/-- Global state: the counter `shared`, the guard and the workers. -/
structure State where
  shared : Nat
  guard : Guard
  workers : List Worker
deriving DecidableEq

/-- Modelled from the spec: `pthread_mutex_lock` of the threading runtime,
which is not in the sources (section 4.3: acquire blocks the calling thread
until it obtains the lock).  It blocks (`none`) while the mutex is locked,
otherwise locks it. -/
def pthread_mutex_lock (locked : Bool) : Option Bool :=
  if locked then Option.none else some true

/-- Modelled from the spec: `pthread_mutex_unlock` of the threading runtime,
which is not in the sources (section 4.3: release relinquishes ownership).
The mutex becomes unlocked. -/
def pthread_mutex_unlock (_locked : Bool) : Bool := false

/-- Modelled from the spec: `dispatch_semaphore_create(value)` of the dispatch
library, which is not in the sources (section 4.4: a counting primitive
initialised with a count).  The new semaphore has `value` permits. -/
def dispatch_semaphore_create (value : Nat) : Nat := value

/-- Modelled from the spec: `dispatch_semaphore_wait(semaphore,
DISPATCH_TIME_FOREVER)` of the dispatch library, which is not in the sources
(section 4.4: wait blocks until a permit is available, then atomically
decrements the count).  It blocks (`none`) while the count is 0. -/
def dispatch_semaphore_wait (count : Nat) : Option Nat :=
  if 0 < count then some (count - 1) else Option.none

/-- Modelled from the spec: `dispatch_semaphore_signal` of the dispatch
library, which is not in the sources (section 4.4: signal atomically
increments the count). -/
def dispatch_semaphore_signal (count : Nat) : Nat := count + 1

namespace Race

/-- One step of `threadCode` (race.cpp) with loop bound `m`, from the current
value of `shared`: the new value of `shared` and the new worker. -/
def threadCode (m : Nat) (shared : Nat) (w : Worker) : Option (Nat × Worker) :=
  match w.pc with
  | .test =>
      if w.x < m then some (shared, { w with pc := .read })
      else some (shared, { w with pc := .done })
  | .read => some (shared, { w with pc := .write, reg := shared })
  | .write => some ((w.reg + 1) % ULONG_MOD, { w with pc := .incr })
  | .incr => some (shared, { w with pc := .test, x := w.x + 1 })
  | .acquire => Option.none
  | .release => Option.none
  | .done => Option.none

end Race

namespace Mutex

/-- One step of `threadIncrementSharedResource` (mutex.cpp) with loop bound
`m`, from the current value of `shared` and the lock flag of `mutex`. -/
def threadIncrementSharedResource (m : Nat) (shared : Nat) (locked : Bool) (w : Worker) :
    Option (Nat × Bool × Worker) :=
  match w.pc with
  | .test =>
      if w.x < m then some (shared, locked, { w with pc := .acquire })
      else some (shared, locked, { w with pc := .done })
  | .acquire =>
      match pthread_mutex_lock locked with
      | some l => some (shared, l, { w with pc := .read })
      | Option.none => Option.none
  | .read => some (shared, locked, { w with pc := .write, reg := shared })
  | .write => some ((w.reg + 1) % ULONG_MOD, locked, { w with pc := .release })
  | .release => some (shared, pthread_mutex_unlock locked, { w with pc := .incr })
  | .incr => some (shared, locked, { w with pc := .test, x := w.x + 1 })
  | .done => Option.none

end Mutex

namespace Semaphore

/-- One step of `threadIncrementSharedResource` (semaphore.cpp) with loop
bound `m`, from the current value of `shared` and the count of `semaphore`. -/
def threadIncrementSharedResource (m : Nat) (shared : Nat) (count : Nat) (w : Worker) :
    Option (Nat × Nat × Worker) :=
  match w.pc with
  | .test =>
      if w.x < m then some (shared, count, { w with pc := .acquire })
      else some (shared, count, { w with pc := .done })
  | .acquire =>
      match dispatch_semaphore_wait count with
      | some c => some (shared, c, { w with pc := .read })
      | Option.none => Option.none
  | .read => some (shared, count, { w with pc := .write, reg := shared })
  | .write => some ((w.reg + 1) % ULONG_MOD, count, { w with pc := .release })
  | .release => some (shared, dispatch_semaphore_signal count, { w with pc := .incr })
  | .incr => some (shared, count, { w with pc := .test, x := w.x + 1 })
  | .done => Option.none

end Semaphore

/-- One step of a worker under the guard of the program it belongs to. -/
def threadStep (m : Nat) (shared : Nat) (g : Guard) (w : Worker) :
    Option (Nat × Guard × Worker) :=
  match g with
  | .none =>
      match Race.threadCode m shared w with
      | some (sh, w') => some (sh, .none, w')
      | Option.none => Option.none
  | .mutex l =>
      match Mutex.threadIncrementSharedResource m shared l w with
      | some (sh, l', w') => some (sh, .mutex l', w')
      | Option.none => Option.none
  | .semaphore c =>
      match Semaphore.threadIncrementSharedResource m shared c w with
      | some (sh, c', w') => some (sh, .semaphore c', w')
      | Option.none => Option.none

/-- One step of worker `i`; `none` when there is no such worker, or it is
blocked in its acquire call, or it has returned. -/
def step (m : Nat) (s : State) (i : Nat) : Option State :=
  match s.workers[i]? with
  | Option.none => Option.none
  | some w =>
      match threadStep m s.shared s.guard w with
      | some (sh, g, w') => some { shared := sh, guard := g, workers := s.workers.set i w' }
      | Option.none => Option.none

/-- The scheduler picks worker `i`: it takes its step if it has one. -/
def exec (m : Nat) (s : State) (i : Nat) : State :=
  (step m s i).getD s

/-- Run a schedule, the list of the workers picked one after the other. -/
def run (m : Nat) (s : State) : List Nat → State
  | [] => s
  | i :: rest => run m (exec m s i) rest

/-- A worker as `pthread_create` starts it: at the loop test with `x = 0`. -/
def Worker.start : Worker := { pc := .test, x := 0, reg := 0 }

/-- Initial state of a program with `n` workers: `shared = 0`, the guard as
the program initialises it, every worker at the start of its loop. -/
def init (g : Guard) (n : Nat) : State :=
  { shared := 0, guard := g, workers := List.replicate n Worker.start }

/-- The guard of `race.cpp`: none. -/
def Race.guard : Guard := .none

/-- The guard of `mutex.cpp`: `PTHREAD_MUTEX_INITIALIZER`, unlocked. -/
def Mutex.guard : Guard := .mutex false

/-- The guard of `semaphore.cpp`: `dispatch_semaphore_create(1)`. -/
def Semaphore.guard : Guard := .semaphore (dispatch_semaphore_create 1)

/-- Every worker has returned, so that every `pthread_join` returns. -/
def State.joined (s : State) : Bool :=
  s.workers.all fun w => decide (w.pc = PC.done)

/-- The worker is between its acquire and its release: at the load, at the
store or at the release call. -/
def Worker.holds (w : Worker) : Bool :=
  decide (w.pc = PC.read) || decide (w.pc = PC.write) || decide (w.pc = PC.release)

/-- Number of workers inside the critical section. -/
def State.holders (s : State) : Nat :=
  s.workers.countP Worker.holds

/-- The three programs, as synchronisation policies of one harness. -/
inductive Policy where
  | unsynchronized
  | mutex
  | semaphore
deriving DecidableEq

/-- The guard a program starts with. -/
def Policy.guard : Policy → Guard
  | .unsynchronized => Race.guard
  | .mutex => Mutex.guard
  | .semaphore => Semaphore.guard

/-- The program a guard object belongs to. -/
def Guard.policy : Guard → Policy
  | .none => .unsynchronized
  | .mutex _ => .mutex
  | .semaphore _ => .semaphore

/-- Initial state of the harness under a policy. -/
def start (p : Policy) (n : Nat) : State := init p.guard n

/-- The harness: `n` workers with loop bound `m` under the given policy, run
under a schedule; the value of the counter that is read after the joins, or
`none` when the schedule leaves a worker unfinished (the join still waits). -/
def harness (p : Policy) (n m : Nat) (sched : List Nat) : Option Nat :=
  let s := run m (start p n) sched
  if s.joined then some s.shared else Option.none

/-- What a program leaves behind: the text written to standard output and the
exit status. -/
structure Exit where
  stdout : String
  status : Int
deriving DecidableEq

/-- The creation loop of `main`: the `i`-th `pthread_create` returns
`create i`, and a worker is started exactly when the code is zero.  The code
is stored in `r` and never read. -/
def spawn (create : Nat → Int) (n : Nat) : List Worker :=
  ((List.range n).filter fun i => decide (create i = 0)).map fun _ => Worker.start

/-- The end of `main`: `std::cout << "shared resource: " << shared << std::endl`
and `return 0`. -/
def report (shared : Nat) : Exit :=
  { stdout := "shared resource: " ++ toString shared ++ "\n", status := 0 }

/-- The state in which `main` leaves the creation loop. -/
def created (g : Guard) (create : Nat → Int) : State :=
  { shared := 0, guard := g, workers := spawn create THREADS }

/-- The body of `main` common to the three programs, for the return codes of
`pthread_create` and a schedule of the started workers: the creation loop,
the join loop (passed once every started worker has returned; `none` while
the schedule leaves one unfinished; a `pthread_join` on a thread that was not
started returns its error code at once, and the code is not read), then the
output of the counter and `return 0`. -/
def mainWith (g : Guard) (create : Nat → Int) (sched : List Nat) : Option Exit :=
  let s := run ITERATIONS (created g create) sched
  if s.joined then some (report s.shared) else Option.none

/-- The function `main` of race.cpp. -/
def Race.main (create : Nat → Int) (sched : List Nat) : Option Exit :=
  mainWith Race.guard create sched

/-- The function `main` of mutex.cpp. -/
def Mutex.main (create : Nat → Int) (sched : List Nat) : Option Exit :=
  mainWith Mutex.guard create sched

/-- The function `main` of semaphore.cpp; `dispatch_release(semaphore)` after
the joins frees the semaphore object and changes nothing that is printed. -/
def Semaphore.main (create : Nat → Int) (sched : List Nat) : Option Exit :=
  mainWith Semaphore.guard create sched

/-- Permits the guard has left: 1 for an unlocked mutex, 0 for a locked one,
the count of a semaphore. -/
def Guard.free : Guard → Nat
  | .none => 0
  | .mutex locked => if locked then 0 else 1
  | .semaphore count => count

/-- Number of stores to `shared` a worker has completed: its finished
iterations, plus one when it is past the store of the current iteration. -/
def Worker.stores (w : Worker) : Nat :=
  if w.pc = PC.release ∨ w.pc = PC.incr then w.x + 1 else w.x

/-- Number of stores to `shared` completed by all workers. -/
def State.stores (s : State) : Nat :=
  (s.workers.map Worker.stores).sum

/-- The loop variable of a worker is within the loop bound: inside the body
`x < m`, after the loop `x = m`. -/
def Worker.wf (m : Nat) (w : Worker) : Prop :=
  match w.pc with
  | .test => w.x ≤ m
  | .done => w.x = m
  | _ => w.x < m

/-- Upper bound on the number of steps a worker still takes; it decreases at
every step of the worker. -/
def Worker.fuel (m : Nat) (w : Worker) : Nat :=
  match w.pc with
  | .test => 7 * (m - w.x) + 1
  | .acquire => 7 * (m - (w.x + 1)) + 7
  | .read => 7 * (m - (w.x + 1)) + 6
  | .write => 7 * (m - (w.x + 1)) + 5
  | .release => 7 * (m - (w.x + 1)) + 4
  | .incr => 7 * (m - (w.x + 1)) + 3
  | .done => 0

/-- Sum of the fuel of the workers. -/
def State.fuel (m : Nat) (s : State) : Nat :=
  (s.workers.map (Worker.fuel m)).sum

/-! ## Invariants -/

/-- Invariant of `mutex.cpp` and `semaphore.cpp`: the workers inside the
critical section and the free permits add up to one, loop variables are within
bounds, the counter is the number of completed stores, and a worker about to
store holds the current value of the counter in its register. -/
structure Sync (m : Nat) (s : State) : Prop where
  guarded : s.guard ≠ Guard.none
  excl : s.holders + s.guard.free = 1
  wf : ∀ w ∈ s.workers, w.wf m
  count : s.shared = s.stores % ULONG_MOD
  fresh : ∀ w ∈ s.workers, w.pc = PC.write → w.reg = s.shared

/-- Invariant of `race.cpp` with slack `d`: no worker is at an acquire or
release point, and the counter and every loaded register lie at least `d`
below the number of completed stores. -/
structure Unsync (d m : Nat) (s : State) : Prop where
  unguarded : s.guard = Guard.none
  wf : ∀ w ∈ s.workers, w.wf m
  body : ∀ w ∈ s.workers, w.pc ≠ PC.acquire ∧ w.pc ≠ PC.release
  bound : s.shared + d ≤ s.stores
  regs : ∀ w ∈ s.workers, w.pc = PC.write → w.reg + d ≤ s.stores

/-- Invariant of `race.cpp` with a single worker: the counter is the number
of stores the worker has completed, and its register is current at the store. -/
def Solo (m : Nat) (s : State) : Prop :=
  s.guard = Guard.none ∧
    ∃ w, s.workers = [w] ∧ w.wf m ∧ s.shared = w.stores % ULONG_MOD ∧
      (w.pc = PC.write → w.reg = s.shared)

/-- Invariant of a run with loop bound 0: the counter is 0, the guard is as
created, and every worker is at the loop test or has returned. -/
def Idle (g : Guard) (s : State) : Prop :=
  s.shared = 0 ∧ s.guard = g ∧ ∀ w ∈ s.workers, w.pc = PC.test ∨ w.pc = PC.done

/-! ## Steps and schedules -/

theorem sum_map_const {f : Worker → Nat} {c : Nat} {ws : List Worker}
    (h : ∀ w ∈ ws, f w = c) : (ws.map f).sum = ws.length * c := by
  induction ws with
  | nil => simp
  | cons a as ih =>
    simp only [List.map_cons, List.sum_cons, List.length_cons]
    rw [h a (by simp), ih (fun w hw => h w (by simp [hw]))]
    ring

theorem workers_split {ws : List Worker} {i : Nat} {w : Worker} (h : ws[i]? = some w)
    (w' : Worker) :
    ∃ pre post, ws = pre ++ w :: post ∧ ws.set i w' = pre ++ w' :: post ∧ pre.length = i := by
  induction ws generalizing i with
  | nil => simp at h
  | cons a as ih =>
    cases i with
    | zero =>
      simp at h
      subst h
      exact ⟨[], as, by simp⟩
    | succ j =>
      simp at h
      obtain ⟨pre, post, h1, h2, h3⟩ := ih h
      exact ⟨a :: pre, post, by simp [h1], by simp [h2], by simp [h3]⟩

theorem getElem?_mid (pre post : List Worker) (w : Worker) :
    (pre ++ w :: post)[pre.length]? = some w := by
  induction pre with
  | nil => simp
  | cons a as ih => simpa using ih

theorem set_mid (pre post : List Worker) (w w' : Worker) :
    (pre ++ w :: post).set pre.length w' = pre ++ w' :: post := by
  induction pre with
  | nil => simp
  | cons a as ih => simp

theorem step_some {m : Nat} {s s' : State} {i : Nat} (h : step m s i = some s') :
    ∃ pre w post sh g w', s.workers = pre ++ w :: post ∧ pre.length = i ∧
      threadStep m s.shared s.guard w = some (sh, g, w') ∧
      s' = { shared := sh, guard := g, workers := pre ++ w' :: post } := by
  unfold step at h
  cases hw : s.workers[i]? with
  | none => simp [hw] at h
  | some w =>
    simp only [hw] at h
    cases ht : threadStep m s.shared s.guard w with
    | none => simp [ht] at h
    | some r =>
      obtain ⟨sh, g, w'⟩ := r
      simp only [ht, Option.some.injEq] at h
      obtain ⟨pre, post, h1, h2, h3⟩ := workers_split hw w'
      exact ⟨pre, w, post, sh, g, w', h1, h3, ht, by rw [← h, h2]⟩

theorem step_of_split {m : Nat} {s : State} {pre post : List Worker} {w w' : Worker}
    {sh : Nat} {g : Guard} (hws : s.workers = pre ++ w :: post)
    (ht : threadStep m s.shared s.guard w = some (sh, g, w')) :
    step m s pre.length = some { shared := sh, guard := g, workers := pre ++ w' :: post } := by
  unfold step
  rw [hws, getElem?_mid]
  simp only [ht, set_mid]

theorem exec_cases (m : Nat) (s : State) (i : Nat) :
    exec m s i = s ∨ step m s i = some (exec m s i) := by
  unfold exec
  cases h : step m s i <;> simp

theorem run_append (m : Nat) (s : State) (a b : List Nat) :
    run m s (a ++ b) = run m (run m s a) b := by
  induction a generalizing s with
  | nil => rfl
  | cons i a ih => simp [run, ih]

/-- A property kept by every step holds along every schedule. -/
theorem run_invariant {m : Nat} {P : State → Prop}
    (hstep : ∀ s i s', P s → step m s i = some s' → P s')
    {s : State} (hs : P s) (sched : List Nat) : P (run m s sched) := by
  induction sched generalizing s with
  | nil => exact hs
  | cons i rest ih =>
    apply ih
    rcases exec_cases m s i with h | h
    · rw [h]; exact hs
    · exact hstep s i _ hs h

/-! ## The invariant of the guarded programs -/

/-- Effect of one step of a worker of a guarded program on the quantities of
the invariant. -/
theorem threadStep_guarded {m shared sh : Nat} {g g' : Guard} {w w' : Worker}
    (hg : g ≠ Guard.none) (hwf : w.wf m) (hfree : w.holds = true → g.free = 0)
    (ht : threadStep m shared g w = some (sh, g', w')) :
    g' ≠ Guard.none ∧ w'.wf m ∧
    (if w'.holds then 1 else 0) + g'.free = (if w.holds then 1 else 0) + g.free ∧
    (w.pc = PC.write →
      sh = (w.reg + 1) % ULONG_MOD ∧ w'.stores = w.stores + 1 ∧ w'.pc ≠ PC.write) ∧
    (w.pc ≠ PC.write →
      sh = shared ∧ w'.stores = w.stores ∧ (w'.pc = PC.write → w'.reg = shared)) := by
  obtain ⟨pc, x, reg⟩ := w
  by_cases hx : x < m
  all_goals
    cases g with
    | none => exact absurd rfl hg
    | mutex l =>
      cases pc <;> cases l <;>
        simp [threadStep, Mutex.threadIncrementSharedResource, pthread_mutex_lock,
          pthread_mutex_unlock, Worker.holds, Guard.free, Worker.wf, Worker.stores, hx]
          at ht hfree hwf ⊢ <;>
        obtain ⟨rfl, rfl, rfl⟩ := ht <;>
        simp <;> omega
    | semaphore c =>
      cases pc <;> cases c <;>
        simp [threadStep, Semaphore.threadIncrementSharedResource, dispatch_semaphore_wait,
          dispatch_semaphore_signal, Worker.holds, Guard.free, Worker.wf, Worker.stores, hx]
          at ht hfree hwf ⊢ <;>
        obtain ⟨rfl, rfl, rfl⟩ := ht <;>
        simp <;> omega

theorem ulong_succ_mod (a : Nat) : (a % ULONG_MOD + 1) % ULONG_MOD = (a + 1) % ULONG_MOD := by
  simp [Nat.add_mod]

theorem sync_step {m : Nat} {s s' : State} {i : Nat} (hs : Sync m s)
    (h : step m s i = some s') : Sync m s' := by
  obtain ⟨pre, w, post, sh, g, w', hws, -, ht, rfl⟩ := step_some h
  obtain ⟨hg, hex, hwf, hcnt, hfr⟩ := hs
  simp only [State.holders, State.stores, hws, List.countP_append, List.countP_cons,
    List.map_append, List.map_cons, List.sum_append, List.sum_cons, List.mem_append,
    List.mem_cons] at hex hwf hcnt hfr
  have hfree : w.holds = true → s.guard.free = 0 := by
    intro hw
    rw [if_pos hw] at hex
    omega
  obtain ⟨hg', hwf', hex', hwr, hnw⟩ := threadStep_guarded hg (hwf w (by simp)) hfree ht
  refine ⟨hg', ?_, ?_, ?_, ?_⟩
  · simp only [State.holders, List.countP_append, List.countP_cons]
    omega
  · intro a ha
    simp only [List.mem_append, List.mem_cons] at ha
    rcases ha with ha | rfl | ha
    · exact hwf a (Or.inl ha)
    · exact hwf'
    · exact hwf a (Or.inr (Or.inr ha))
  · simp only [State.stores, List.map_append, List.map_cons, List.sum_append, List.sum_cons]
    by_cases hw : w.pc = PC.write
    · obtain ⟨h1, h2, -⟩ := hwr hw
      rw [h1, h2, hfr w (Or.inr (Or.inl rfl)) hw, hcnt, ulong_succ_mod]
      congr 1
      omega
    · obtain ⟨h1, h2, -⟩ := hnw hw
      rw [h1, h2, hcnt]
  · intro a ha hpc
    simp only [List.mem_append, List.mem_cons] at ha
    by_cases hw : w.pc = PC.write
    · obtain ⟨-, -, h3⟩ := hwr hw
      have hh : w.holds = true := by simp [Worker.holds, hw]
      rw [if_pos hh] at hex
      have h0 : List.countP Worker.holds pre = 0 ∧ List.countP Worker.holds post = 0 := by
        omega
      rw [List.countP_eq_zero, List.countP_eq_zero] at h0
      have ha' : a.holds = true := by simp [Worker.holds, hpc]
      rcases ha with ha | rfl | ha
      · exact absurd ha' (h0.1 a ha)
      · exact absurd hpc h3
      · exact absurd ha' (h0.2 a ha)
    · obtain ⟨h1, -, h3⟩ := hnw hw
      simp only [h1]
      rcases ha with ha | rfl | ha
      · exact hfr a (Or.inl ha) hpc
      · exact h3 hpc
      · exact hfr a (Or.inr (Or.inr ha)) hpc

theorem sync_of_start {g : Guard} {ws : List Worker} (hg : g ≠ Guard.none)
    (hfree : g.free = 1) (hws : ∀ w ∈ ws, w = Worker.start) (m : Nat) :
    Sync m { shared := 0, guard := g, workers := ws } := by
  refine ⟨hg, ?_, ?_, ?_, ?_⟩
  · have h0 : List.countP Worker.holds ws = 0 := by
      rw [List.countP_eq_zero]
      intro w hw
      rw [hws w hw]
      simp [Worker.holds, Worker.start]
    simp only [State.holders, h0, hfree]
  · intro w hw
    rw [hws w hw]
    simp [Worker.wf, Worker.start]
  · have h0 : (ws.map Worker.stores).sum = ws.length * 0 := by
      apply sum_map_const
      intro w hw
      rw [hws w hw]
      simp [Worker.stores, Worker.start]
    simp [State.stores, h0]
  · intro w hw hpc
    rw [hws w hw] at hpc
    simp [Worker.start] at hpc

theorem sync_start {p : Policy} (hp : p ≠ Policy.unsynchronized) (n m : Nat) :
    Sync m (start p n) := by
  cases p with
  | unsynchronized => exact absurd rfl hp
  | mutex =>
    exact sync_of_start (by simp [Policy.guard, Mutex.guard])
      (by simp [Policy.guard, Mutex.guard, Guard.free])
      (fun w hw => (List.mem_replicate.mp hw).2) m
  | semaphore =>
    exact sync_of_start (by simp [Policy.guard, Semaphore.guard])
      (by simp [Policy.guard, Semaphore.guard, Guard.free, dispatch_semaphore_create])
      (fun w hw => (List.mem_replicate.mp hw).2) m

theorem sync_run {m : Nat} {s : State} (hs : Sync m s) (sched : List Nat) :
    Sync m (run m s sched) :=
  run_invariant (fun _ _ _ h1 h2 => sync_step h1 h2) hs sched

/-! ## Termination -/

theorem threadStep_fuel {m shared sh : Nat} {g g' : Guard} {w w' : Worker}
    (ht : threadStep m shared g w = some (sh, g', w')) : w'.fuel m < w.fuel m := by
  obtain ⟨pc, x, reg⟩ := w
  by_cases hx : x < m
  all_goals
    cases g with
    | none =>
      cases pc <;>
        simp [threadStep, Race.threadCode, Worker.fuel, hx] at ht ⊢ <;>
        obtain ⟨rfl, rfl, rfl⟩ := ht <;>
        simp <;> omega
    | mutex l =>
      cases pc <;> cases l <;>
        simp [threadStep, Mutex.threadIncrementSharedResource, pthread_mutex_lock,
          pthread_mutex_unlock, Worker.fuel, hx] at ht ⊢ <;>
        obtain ⟨rfl, rfl, rfl⟩ := ht <;>
        simp <;> omega
    | semaphore c =>
      cases pc <;> cases c <;>
        simp [threadStep, Semaphore.threadIncrementSharedResource, dispatch_semaphore_wait,
          dispatch_semaphore_signal, Worker.fuel, hx] at ht ⊢ <;>
        obtain ⟨rfl, rfl, rfl⟩ := ht <;>
        simp <;> omega

theorem step_fuel {m : Nat} {s s' : State} {i : Nat} (h : step m s i = some s') :
    s'.fuel m < s.fuel m := by
  obtain ⟨pre, w, post, sh, g, w', hws, -, ht, rfl⟩ := step_some h
  have := threadStep_fuel ht
  simp only [State.fuel, hws, List.map_append, List.map_cons, List.sum_append, List.sum_cons]
  omega

/-- From every state of a set of states that is closed under steps and in
which an unfinished state has a step, some schedule ends with every worker
returned. -/
theorem run_completes {m : Nat} {P : State → Prop}
    (hstep : ∀ s i s', P s → step m s i = some s' → P s')
    (hprog : ∀ s, P s → s.joined = false → ∃ i s', step m s i = some s')
    (s : State) (hs : P s) : ∃ sched, (run m s sched).joined = true := by
  generalize hf : s.fuel m = k
  induction k using Nat.strong_induction_on generalizing s with
  | _ k ih =>
    cases hj : s.joined with
    | true => exact ⟨[], hj⟩
    | false =>
      obtain ⟨i, s', h⟩ := hprog s hs hj
      obtain ⟨sched, hsched⟩ := ih (s'.fuel m) (hf ▸ step_fuel h) s' (hstep s i s' hs h) rfl
      refine ⟨i :: sched, ?_⟩
      simpa [run, exec, h] using hsched

theorem step_length {m : Nat} {s s' : State} {i : Nat} (h : step m s i = some s') :
    s'.workers.length = s.workers.length := by
  obtain ⟨pre, w, post, sh, g, w', hws, -, -, rfl⟩ := step_some h
  simp [hws]

theorem run_length (m : Nat) (s : State) (sched : List Nat) :
    (run m s sched).workers.length = s.workers.length :=
  run_invariant (P := fun t => t.workers.length = s.workers.length)
    (fun _ _ _ h1 h2 => (step_length h2).trans h1) rfl sched

/-- When every worker has returned, each has completed `m` stores. -/
theorem stores_of_joined {m : Nat} {s : State} (hwf : ∀ w ∈ s.workers, w.wf m)
    (hj : s.joined = true) : s.stores = s.workers.length * m := by
  apply sum_map_const
  intro w hw
  simp only [State.joined, List.all_eq_true, decide_eq_true_eq] at hj
  have h1 := hj w hw
  have h2 := hwf w hw
  simp only [Worker.wf, h1] at h2
  simp [Worker.stores, h1, h2]

theorem threadStep_enabled (m shared : Nat) {g : Guard} {w : Worker}
    (hacq : w.pc = PC.acquire → 0 < g.free) (hrel : w.pc = PC.release → g ≠ Guard.none)
    (hdone : w.pc ≠ PC.done) : ∃ r, threadStep m shared g w = some r := by
  obtain ⟨pc, x, reg⟩ := w
  by_cases hx : x < m
  all_goals
    cases g with
    | none =>
      cases pc <;>
        simp [threadStep, Race.threadCode, Guard.free, hx] at hacq hrel hdone ⊢
    | mutex l =>
      cases pc <;> cases l <;>
        simp [threadStep, Mutex.threadIncrementSharedResource, pthread_mutex_lock,
          pthread_mutex_unlock, Guard.free, hx] at hacq hrel hdone ⊢
    | semaphore c =>
      cases pc <;> cases c <;>
        simp [threadStep, Semaphore.threadIncrementSharedResource, dispatch_semaphore_wait,
          dispatch_semaphore_signal, Guard.free, hx] at hacq hrel hdone ⊢

theorem step_of_mem {m : Nat} {s : State} {w : Worker} (hw : w ∈ s.workers)
    (hacq : w.pc = PC.acquire → 0 < s.guard.free)
    (hrel : w.pc = PC.release → s.guard ≠ Guard.none)
    (hdone : w.pc ≠ PC.done) : ∃ i s', step m s i = some s' := by
  obtain ⟨pre, post, hws⟩ := List.append_of_mem hw
  obtain ⟨⟨sh, g, w'⟩, hr⟩ := threadStep_enabled m s.shared hacq hrel hdone
  exact ⟨pre.length, _, step_of_split hws hr⟩

theorem exists_unfinished {s : State} (hj : s.joined = false) :
    ∃ w ∈ s.workers, w.pc ≠ PC.done := by
  by_contra hcon
  push_neg at hcon
  have : s.joined = true := by
    simp only [State.joined, List.all_eq_true, decide_eq_true_eq]
    exact hcon
  rw [hj] at this
  exact Bool.false_ne_true this

/-- No deadlock in the guarded programs: an unfinished state has a step. -/
theorem sync_progress {m : Nat} {s : State} (hs : Sync m s) (hj : s.joined = false) :
    ∃ i s', step m s i = some s' := by
  obtain ⟨w, hw, hdone⟩ := exists_unfinished hj
  by_cases hh : s.holders = 0
  · have hfree : s.guard.free = 1 := by have := hs.excl; omega
    exact step_of_mem hw (fun _ => by omega) (fun _ => hs.guarded) hdone
  · have hpos : 0 < List.countP Worker.holds s.workers := Nat.pos_of_ne_zero hh
    obtain ⟨v, hv, hvh⟩ := List.countP_pos_iff.mp hpos
    refine step_of_mem hv ?_ (fun _ => hs.guarded) ?_
    · intro h; simp [Worker.holds, h] at hvh
    · intro h; simp [Worker.holds, h] at hvh

theorem sync_completes {m : Nat} {s : State} (hs : Sync m s) :
    ∃ sched, (run m s sched).joined = true :=
  run_completes (fun _ _ _ h1 h2 => sync_step h1 h2) (fun _ h1 h2 => sync_progress h1 h2) s hs

/-! ## The invariant of the unguarded program -/

/-- Effect of one step of a worker of `race.cpp`. -/
theorem threadStep_race {m shared sh : Nat} {g' : Guard} {w w' : Worker}
    (hwf : w.wf m) (ht : threadStep m shared Guard.none w = some (sh, g', w')) :
    g' = Guard.none ∧ w'.wf m ∧ (w'.pc ≠ PC.acquire ∧ w'.pc ≠ PC.release) ∧
    (w.pc = PC.write →
      sh = (w.reg + 1) % ULONG_MOD ∧ w'.stores = w.stores + 1 ∧ w'.pc ≠ PC.write) ∧
    (w.pc ≠ PC.write →
      sh = shared ∧ w'.stores = w.stores ∧ (w'.pc = PC.write → w'.reg = shared)) := by
  obtain ⟨pc, x, reg⟩ := w
  by_cases hx : x < m
  all_goals
    cases pc <;>
      simp [threadStep, Race.threadCode, Worker.wf, Worker.stores, hx] at ht hwf ⊢ <;>
      obtain ⟨rfl, rfl, rfl⟩ := ht <;>
      simp <;> omega

theorem unsync_step {d m : Nat} {s s' : State} {i : Nat} (hs : Unsync d m s)
    (h : step m s i = some s') : Unsync d m s' := by
  obtain ⟨pre, w, post, sh, g, w', hws, -, ht, rfl⟩ := step_some h
  obtain ⟨hg, hwf, hbody, hcnt, hreg⟩ := hs
  simp only [State.stores, hws, List.map_append, List.map_cons, List.sum_append,
    List.sum_cons, List.mem_append, List.mem_cons] at hwf hbody hcnt hreg
  rw [hg] at ht
  obtain ⟨hg', hwf', hbody', hwr, hnw⟩ := threadStep_race (hwf w (by simp)) ht
  have hst : w.stores ≤ w'.stores := by
    by_cases hw : w.pc = PC.write
    · have := (hwr hw).2.1; omega
    · have := (hnw hw).2.1; omega
  refine ⟨hg', ?_, ?_, ?_, ?_⟩
  · intro a ha
    simp only [List.mem_append, List.mem_cons] at ha
    rcases ha with ha | rfl | ha
    · exact hwf a (Or.inl ha)
    · exact hwf'
    · exact hwf a (Or.inr (Or.inr ha))
  · intro a ha
    simp only [List.mem_append, List.mem_cons] at ha
    rcases ha with ha | rfl | ha
    · exact hbody a (Or.inl ha)
    · exact hbody'
    · exact hbody a (Or.inr (Or.inr ha))
  · simp only [State.stores, List.map_append, List.map_cons, List.sum_append, List.sum_cons]
    by_cases hw : w.pc = PC.write
    · obtain ⟨h1, h2, -⟩ := hwr hw
      have h3 := hreg w (Or.inr (Or.inl rfl)) hw
      have h4 : sh ≤ w.reg + 1 := h1 ▸ Nat.mod_le _ _
      omega
    · obtain ⟨h1, h2, -⟩ := hnw hw
      omega
  · intro a ha hpc
    simp only [State.stores, List.map_append, List.map_cons, List.sum_append, List.sum_cons]
    simp only [List.mem_append, List.mem_cons] at ha
    rcases ha with ha | rfl | ha
    · have := hreg a (Or.inl ha) hpc; omega
    · by_cases hw : w.pc = PC.write
      · exact absurd hpc (hwr hw).2.2
      · obtain ⟨-, h2, h3⟩ := hnw hw
        rw [h3 hpc]
        omega
    · have := hreg a (Or.inr (Or.inr ha)) hpc; omega

theorem unsync_of_start {ws : List Worker} (hws : ∀ w ∈ ws, w = Worker.start) (m : Nat) :
    Unsync 0 m { shared := 0, guard := Guard.none, workers := ws } := by
  refine ⟨rfl, ?_, ?_, ?_, ?_⟩
  · intro w hw
    rw [hws w hw]
    simp [Worker.wf, Worker.start]
  · intro w hw
    rw [hws w hw]
    simp [Worker.start]
  · simp
  · intro w hw hpc
    rw [hws w hw] at hpc
    simp [Worker.start] at hpc

theorem unsync_start (n m : Nat) : Unsync 0 m (start Policy.unsynchronized n) :=
  unsync_of_start (fun _ hw => (List.mem_replicate.mp hw).2) m

theorem unsync_run {d m : Nat} {s : State} (hs : Unsync d m s) (sched : List Nat) :
    Unsync d m (run m s sched) :=
  run_invariant (fun _ _ _ h1 h2 => unsync_step h1 h2) hs sched

/-- No worker of `race.cpp` ever blocks: an unfinished state has a step. -/
theorem unsync_progress {d m : Nat} {s : State} (hs : Unsync d m s) (hj : s.joined = false) :
    ∃ i s', step m s i = some s' := by
  obtain ⟨w, hw, hdone⟩ := exists_unfinished hj
  exact step_of_mem hw (fun h => absurd h (hs.body w hw).1)
    (fun h => absurd h (hs.body w hw).2) hdone

theorem unsync_completes {d m : Nat} {s : State} (hs : Unsync d m s) :
    ∃ sched, (run m s sched).joined = true :=
  run_completes (fun _ _ _ h1 h2 => unsync_step h1 h2) (fun _ h1 h2 => unsync_progress h1 h2) s hs

theorem stores_le {m : Nat} {s : State} (hwf : ∀ w ∈ s.workers, w.wf m) :
    s.stores ≤ s.workers.length * m := by
  unfold State.stores
  generalize s.workers = ws at hwf
  induction ws with
  | nil => simp
  | cons a as ih =>
    have h1 : a.stores ≤ m := by
      have h := hwf a (by simp)
      obtain ⟨pc, x, reg⟩ := a
      cases pc <;> simp [Worker.wf, Worker.stores] at h ⊢ <;> omega
    have h2 := ih (fun w hw => hwf w (by simp [hw]))
    simp only [List.map_cons, List.sum_cons, List.length_cons]
    rw [Nat.add_mul]
    omega

/-! ## One worker without a guard -/

theorem solo_step {m : Nat} {s s' : State} {i : Nat} (hs : Solo m s)
    (h : step m s i = some s') : Solo m s' := by
  obtain ⟨pre, w, post, sh, g, w', hws, -, ht, rfl⟩ := step_some h
  obtain ⟨hg, v, hv, hwf, hcnt, hfr⟩ := hs
  rw [hv] at hws
  have hpre : pre = [] := by
    cases pre with
    | nil => rfl
    | cons a as => simp at hws
  subst hpre
  simp only [List.nil_append, List.cons.injEq] at hws
  obtain ⟨rfl, rfl⟩ := hws
  rw [hg] at ht
  obtain ⟨hg', hwf', -, hwr, hnw⟩ := threadStep_race hwf ht
  refine ⟨hg', w', rfl, hwf', ?_, ?_⟩
  · by_cases hw : v.pc = PC.write
    · obtain ⟨h1, h2, -⟩ := hwr hw
      simp only [h1, h2, hfr hw, hcnt, ulong_succ_mod]
    · obtain ⟨h1, h2, -⟩ := hnw hw
      simp only [h1, h2, hcnt]
  · intro hpc
    by_cases hw : v.pc = PC.write
    · exact absurd hpc (hwr hw).2.2
    · obtain ⟨h1, -, h3⟩ := hnw hw
      simp only [h1, h3 hpc]

theorem solo_start (m : Nat) : Solo m (start Policy.unsynchronized 1) :=
  ⟨rfl, Worker.start, rfl, by simp [Worker.wf, Worker.start],
    by simp [start, init, Worker.stores, Worker.start], by simp [Worker.start]⟩

theorem solo_run {m : Nat} {s : State} (hs : Solo m s) (sched : List Nat) :
    Solo m (run m s sched) :=
  run_invariant (fun _ _ _ h1 h2 => solo_step h1 h2) hs sched

/-! ## Loop bound zero -/

theorem threadStep_zero {shared sh : Nat} {g g' : Guard} {w w' : Worker}
    (hpc : w.pc = PC.test ∨ w.pc = PC.done)
    (ht : threadStep 0 shared g w = some (sh, g', w')) :
    sh = shared ∧ g' = g ∧ (w'.pc = PC.test ∨ w'.pc = PC.done) := by
  obtain ⟨pc, x, reg⟩ := w
  cases g <;> cases pc <;>
    simp [threadStep, Race.threadCode, Mutex.threadIncrementSharedResource,
      Semaphore.threadIncrementSharedResource] at ht hpc ⊢ <;>
    obtain ⟨rfl, rfl, rfl⟩ := ht <;>
    simp

theorem idle_step {g : Guard} {s s' : State} {i : Nat} (hs : Idle g s)
    (h : step 0 s i = some s') : Idle g s' := by
  obtain ⟨pre, w, post, sh, g', w', hws, -, ht, rfl⟩ := step_some h
  obtain ⟨hsh, hg, hpc⟩ := hs
  simp only [hws, List.mem_append, List.mem_cons] at hpc
  obtain ⟨h1, h2, h3⟩ := threadStep_zero (hpc w (by simp)) ht
  refine ⟨h1.trans hsh, h2.trans hg, ?_⟩
  intro a ha
  simp only [List.mem_append, List.mem_cons] at ha
  rcases ha with ha | rfl | ha
  · exact hpc a (Or.inl ha)
  · exact h3
  · exact hpc a (Or.inr (Or.inr ha))

theorem idle_start (p : Policy) (n : Nat) : Idle p.guard (start p n) := by
  refine ⟨rfl, rfl, ?_⟩
  intro w hw
  rw [(List.mem_replicate.mp hw).2]
  exact Or.inl rfl

theorem idle_progress {g : Guard} {s : State} (hs : Idle g s) (hj : s.joined = false) :
    ∃ i s', step 0 s i = some s' := by
  obtain ⟨w, hw, hdone⟩ := exists_unfinished hj
  have htest : w.pc = PC.test := (hs.2.2 w hw).resolve_right hdone
  exact step_of_mem hw (fun h => by simp [htest] at h) (fun h => by simp [htest] at h) hdone

/-! ## The guard object and the creation loop -/

theorem threadStep_policy {m shared sh : Nat} {g g' : Guard} {w w' : Worker}
    (ht : threadStep m shared g w = some (sh, g', w')) : g'.policy = g.policy := by
  cases g with
  | none =>
    simp only [threadStep] at ht
    split at ht <;> simp at ht
    rw [← ht.2.1]
  | mutex l =>
    simp only [threadStep] at ht
    split at ht <;> simp at ht
    rw [← ht.2.1]; rfl
  | semaphore c =>
    simp only [threadStep] at ht
    split at ht <;> simp at ht
    rw [← ht.2.1]; rfl

theorem run_policy (m : Nat) (s : State) (sched : List Nat) :
    (run m s sched).guard.policy = s.guard.policy :=
  run_invariant (P := fun t => t.guard.policy = s.guard.policy)
    (fun t i t' h1 h2 => by
      obtain ⟨pre, w, post, sh, g, w', -, -, ht, rfl⟩ := step_some h2
      exact (threadStep_policy ht).trans h1) rfl sched

theorem guard_of_free {p : Policy} {g : Guard} (hp : p ≠ Policy.unsynchronized)
    (hpol : g.policy = p) (hfree : g.free = 1) : g = p.guard := by
  cases g with
  | none => exact absurd hpol.symm hp
  | mutex l =>
    subst hpol
    cases l <;> simp [Guard.free] at hfree
    rfl
  | semaphore c =>
    subst hpol
    simp only [Guard.free] at hfree
    subst hfree
    rfl

theorem policy_guard (p : Policy) : p.guard.policy = p := by
  cases p <;> rfl

theorem spawn_start (create : Nat → Int) (n : Nat) :
    ∀ w ∈ spawn create n, w = Worker.start := by
  intro w hw
  simp only [spawn, List.mem_map] at hw
  obtain ⟨_, _, h⟩ := hw
  exact h.symm

theorem spawn_length_le (create : Nat → Int) (n : Nat) : (spawn create n).length ≤ n := by
  simp only [spawn, List.length_map]
  exact (List.length_filter_le _ _).trans (by simp)

theorem spawn_all {create : Nat → Int} {n : Nat} (h : ∀ i < n, create i = 0) :
    spawn create n = List.replicate n Worker.start := by
  have hf : (List.range n).filter (fun i => decide (create i = 0)) = List.range n := by
    rw [List.filter_eq_self]
    intro i hi
    simpa using h i (List.mem_range.mp hi)
  simp only [spawn, hf]
  apply List.ext_getElem <;> simp

theorem harness_some {p : Policy} {n m : Nat} {sched : List Nat} {v : Nat}
    (h : harness p n m sched = some v) :
    (run m (start p n) sched).joined = true ∧ (run m (start p n) sched).shared = v := by
  unfold harness at h
  simp only at h
  split at h
  · exact ⟨by assumption, by simpa using h⟩
  · simp at h

theorem harness_of_joined {p : Policy} {n m : Nat} {sched : List Nat}
    (h : (run m (start p n) sched).joined = true) :
    harness p n m sched = some (run m (start p n) sched).shared := by
  simp [harness, h]

theorem start_length (p : Policy) (n : Nat) : (start p n).workers.length = n := by
  simp [start, init]

theorem sync_final {m : Nat} {s : State} (hs : Sync m s) (hj : s.joined = true) :
    s.shared = (s.workers.length * m) % ULONG_MOD := by
  rw [hs.count, stores_of_joined hs.wf hj]

theorem sync_harness {p : Policy} (hp : p ≠ Policy.unsynchronized) {n m : Nat}
    {sched : List Nat} {v : Nat} (h : harness p n m sched = some v) :
    v = (n * m) % ULONG_MOD := by
  obtain ⟨hj, hv⟩ := harness_some h
  have h1 := sync_final (sync_run (sync_start hp n m) sched) hj
  rw [run_length, start_length] at h1
  rw [← hv, h1]

theorem harness_extends {p : Policy} {n m : Nat} {P : State → Prop}
    (hstep : ∀ s i s', P s → step m s i = some s' → P s')
    (hprog : ∀ s, P s → s.joined = false → ∃ i s', step m s i = some s')
    (h0 : P (start p n)) (sched : List Nat) :
    ∃ ext v, harness p n m (sched ++ ext) = some v := by
  obtain ⟨ext, hext⟩ :=
    run_completes hstep hprog (run m (start p n) sched) (run_invariant hstep h0 sched)
  rw [← run_append] at hext
  exact ⟨ext, _, harness_of_joined hext⟩

theorem sync_harness_extends {p : Policy} (hp : p ≠ Policy.unsynchronized) (n m : Nat)
    (sched : List Nat) : ∃ ext v, harness p n m (sched ++ ext) = some v :=
  harness_extends (fun _ _ _ h1 h2 => sync_step h1 h2) (fun _ h1 h2 => sync_progress h1 h2)
    (sync_start hp n m) sched

theorem unsync_harness_extends (n m : Nat) (sched : List Nat) :
    ∃ ext v, harness Policy.unsynchronized n m (sched ++ ext) = some v :=
  harness_extends (fun _ _ _ h1 h2 => unsync_step (d := 0) h1 h2)
    (fun _ h1 h2 => unsync_progress h1 h2) (unsync_start n m) sched

/-! ## The function `main` -/

theorem mainWith_some {g : Guard} {create : Nat → Int} {sched : List Nat} {out : Exit}
    (h : mainWith g create sched = some out) :
    (run ITERATIONS (created g create) sched).joined = true ∧
    out = report (run ITERATIONS (created g create) sched).shared := by
  unfold mainWith at h
  simp only at h
  split at h
  · exact ⟨by assumption, by simpa using h.symm⟩
  · simp at h

theorem spawn_fits (create : Nat → Int) :
    (spawn create THREADS).length * ITERATIONS < ULONG_MOD :=
  calc (spawn create THREADS).length * ITERATIONS
      ≤ THREADS * ITERATIONS := Nat.mul_le_mul_right _ (spawn_length_le create THREADS)
    _ < ULONG_MOD := by norm_num [THREADS, ITERATIONS, ULONG_MOD]

/-- The `main` of a guarded program prints the total of the workers that were
started and returns 0, and it does return under a suitable schedule. -/
theorem mainWith_guarded {g : Guard} (hg : g ≠ Guard.none) (hfree : g.free = 1)
    (create : Nat → Int) :
    (∀ sched out, mainWith g create sched = some out →
      out = report ((spawn create THREADS).length * ITERATIONS)) ∧
    (∀ sched, ∃ ext, mainWith g create (sched ++ ext) =
      some (report ((spawn create THREADS).length * ITERATIONS))) := by
  have h0 : Sync ITERATIONS (created g create) :=
    sync_of_start hg hfree (spawn_start create THREADS) ITERATIONS
  have key : ∀ sched, (run ITERATIONS (created g create) sched).joined = true →
      (run ITERATIONS (created g create) sched).shared
        = (spawn create THREADS).length * ITERATIONS := by
    intro sched hj
    rw [sync_final (sync_run h0 sched) hj, run_length]
    exact Nat.mod_eq_of_lt (spawn_fits create)
  constructor
  · intro sched out h
    obtain ⟨hj, hout⟩ := mainWith_some h
    rw [hout, key sched hj]
  · intro sched
    obtain ⟨ext, hext⟩ := sync_completes (sync_run h0 sched)
    rw [← run_append] at hext
    refine ⟨ext, ?_⟩
    simp only [mainWith, hext, if_true, key _ hext]

theorem mutex_main (create : Nat → Int) :
    (∀ sched out, Mutex.main create sched = some out →
      out = report ((spawn create THREADS).length * ITERATIONS)) ∧
    (∀ sched, ∃ ext, Mutex.main create (sched ++ ext) =
      some (report ((spawn create THREADS).length * ITERATIONS))) :=
  mainWith_guarded (by simp [Mutex.guard]) (by simp [Mutex.guard, Guard.free]) create

theorem semaphore_main (create : Nat → Int) :
    (∀ sched out, Semaphore.main create sched = some out →
      out = report ((spawn create THREADS).length * ITERATIONS)) ∧
    (∀ sched, ∃ ext, Semaphore.main create (sched ++ ext) =
      some (report ((spawn create THREADS).length * ITERATIONS))) :=
  mainWith_guarded (by simp [Semaphore.guard])
    (by simp [Semaphore.guard, Guard.free, dispatch_semaphore_create]) create

/-! ## The claims -/

/-- C1: under the mutex policy and under the binary-semaphore policy, for
every worker count `n` and loop bound `m` whose product fits the counter type,
every schedule that lets all workers return leaves the counter at `n * m`, and
every schedule can be continued to one that lets all workers return, with that
same value. -/
theorem synchronized_total (p : Policy) (hp : p ≠ Policy.unsynchronized) (n m : Nat)
    (hfit : n * m < ULONG_MOD) :
    (∀ sched v, harness p n m sched = some v → v = n * m) ∧
    (∀ sched, ∃ ext, harness p n m (sched ++ ext) = some (n * m)) := by
  have key : ∀ sched v, harness p n m sched = some v → v = n * m := by
    intro sched v h
    rw [sync_harness hp h, Nat.mod_eq_of_lt hfit]
  refine ⟨key, ?_⟩
  intro sched
  obtain ⟨ext, v, h⟩ := sync_harness_extends hp n m sched
  exact ⟨ext, by rw [h, key _ _ h]⟩

/-- Witness of C1: the mutex policy with two workers and loop bound one. -/
theorem synchronized_total_witness :
    (Policy.mutex ≠ Policy.unsynchronized ∧ 2 * 1 < ULONG_MOD) ∧
    ((∀ sched v, harness Policy.mutex 2 1 sched = some v → v = 2 * 1) ∧
      (∀ sched, ∃ ext, harness Policy.mutex 2 1 (sched ++ ext) = some (2 * 1))) :=
  ⟨⟨by decide, by norm_num [ULONG_MOD]⟩,
    synchronized_total Policy.mutex (by decide) 2 1 (by norm_num [ULONG_MOD])⟩

/-- C2: under the mutex policy and under the binary-semaphore policy, in every
state reached from the initial state by any schedule, at most one worker is
between its acquire and its release. -/
theorem mutual_exclusion (p : Policy) (hp : p ≠ Policy.unsynchronized) (n m : Nat)
    (sched : List Nat) : (run m (start p n) sched).holders ≤ 1 := by
  have h := (sync_run (sync_start hp n m) sched).excl
  omega

/-- Witness of C2: the semaphore policy with three workers, two of them past
the loop test and one inside the critical section. -/
theorem mutual_exclusion_witness :
    Policy.semaphore ≠ Policy.unsynchronized ∧
    (run 2 (start Policy.semaphore 3) [0, 1, 0, 1, 2, 0, 1]).holders ≤ 1 :=
  ⟨by decide, mutual_exclusion Policy.semaphore (by decide) 3 2 [0, 1, 0, 1, 2, 0, 1]⟩

/-- C4: under the unsynchronized policy, for every worker count `n`, every
loop bound `m` and every schedule of the separate load and store steps, the
counter never exceeds `n * m`; in particular the value read after the joins
is at most `n * m`, and every schedule can be continued until all workers
have returned. -/
theorem race_upper_bound (n m : Nat) :
    (∀ sched, (run m (start Policy.unsynchronized n) sched).shared ≤ n * m) ∧
    (∀ sched v, harness Policy.unsynchronized n m sched = some v → v ≤ n * m) ∧
    (∀ sched, ∃ ext v, harness Policy.unsynchronized n m (sched ++ ext) = some v) := by
  have key : ∀ sched, (run m (start Policy.unsynchronized n) sched).shared ≤ n * m := by
    intro sched
    have hs := unsync_run (unsync_start n m) sched
    have h1 := hs.bound
    have h2 := stores_le hs.wf
    rw [run_length, start_length] at h2
    omega
  refine ⟨key, ?_, ?_⟩
  · intro sched v h
    rw [← (harness_some h).2]
    exact key sched
  · exact unsync_harness_extends n m

/-- C5: with one worker, for every loop bound `m` that fits the counter type
and under each of the three policies, every schedule that lets the worker
return leaves the counter at `m`, and every schedule can be continued to one
that does. -/
theorem single_thread (p : Policy) (m : Nat) (hfit : m < ULONG_MOD) :
    (∀ sched v, harness p 1 m sched = some v → v = m) ∧
    (∀ sched, ∃ ext, harness p 1 m (sched ++ ext) = some m) := by
  by_cases hp : p = Policy.unsynchronized
  · subst hp
    have key : ∀ sched v, harness Policy.unsynchronized 1 m sched = some v → v = m := by
      intro sched v h
      obtain ⟨hj, hv⟩ := harness_some h
      obtain ⟨-, w, hw, hwf, hcnt, -⟩ := solo_run (solo_start m) sched
      simp only [State.joined, hw, List.all_cons, List.all_nil, Bool.and_true,
        decide_eq_true_eq] at hj
      simp only [Worker.wf, hj] at hwf
      rw [← hv, hcnt]
      simp only [Worker.stores, hj, hwf]
      simpa using Nat.mod_eq_of_lt hfit
    refine ⟨key, ?_⟩
    intro sched
    obtain ⟨ext, v, h⟩ := unsync_harness_extends 1 m sched
    exact ⟨ext, by rw [h, key _ _ h]⟩
  · have key : ∀ sched v, harness p 1 m sched = some v → v = m := by
      intro sched v h
      rw [sync_harness hp h, Nat.one_mul, Nat.mod_eq_of_lt hfit]
    refine ⟨key, ?_⟩
    intro sched
    obtain ⟨ext, v, h⟩ := sync_harness_extends hp 1 m sched
    exact ⟨ext, by rw [h, key _ _ h]⟩

/-- Witness of C5: the unsynchronized policy with loop bound two. -/
theorem single_thread_witness :
    2 < ULONG_MOD ∧
    ((∀ sched v, harness Policy.unsynchronized 1 2 sched = some v → v = 2) ∧
      (∀ sched, ∃ ext, harness Policy.unsynchronized 1 2 (sched ++ ext) = some 2)) :=
  ⟨by norm_num [ULONG_MOD], single_thread Policy.unsynchronized 2 (by norm_num [ULONG_MOD])⟩

/-- C6: with loop bound 0, for every worker count and each of the three
policies, in every state reached by any schedule the counter is 0, the guard
is as it was created and every worker is at its loop test or has returned (no
worker acquires the guard or stores to the counter); the value read after the
joins is 0, and every schedule can be continued until all workers have
returned. -/
theorem zero_iterations (p : Policy) (n : Nat) :
    (∀ sched, (run 0 (start p n) sched).shared = 0 ∧
      (run 0 (start p n) sched).guard = p.guard ∧
      ∀ w ∈ (run 0 (start p n) sched).workers, w.pc = PC.test ∨ w.pc = PC.done) ∧
    (∀ sched v, harness p n 0 sched = some v → v = 0) ∧
    (∀ sched, ∃ ext, harness p n 0 (sched ++ ext) = some 0) := by
  have key : ∀ sched, Idle p.guard (run 0 (start p n) sched) := fun sched =>
    run_invariant (fun _ _ _ h1 h2 => idle_step h1 h2) (idle_start p n) sched
  have val : ∀ sched v, harness p n 0 sched = some v → v = 0 := by
    intro sched v h
    rw [← (harness_some h).2]
    exact (key sched).1
  refine ⟨key, val, ?_⟩
  intro sched
  obtain ⟨ext, v, h⟩ := harness_extends (fun _ _ _ h1 h2 => idle_step h1 h2)
    (fun _ h1 h2 => idle_progress h1 h2) (idle_start p n) sched
  exact ⟨ext, by rw [h, val _ _ h]⟩

/-- C7: with `THREADS = 5` workers, loop bound 10000000 and the counter
started at 0, whenever all five workers are created, `main` of mutex.cpp and
`main` of semaphore.cpp can only return having printed the line
`shared resource: 50000000` followed by a newline, with exit status 0, and
every schedule can be continued to one under which they do return so. -/
theorem main_prints_total (create : Nat → Int) (hall : ∀ i, i < THREADS → create i = 0) :
    (∀ sched out, Mutex.main create sched = some out →
      out = { stdout := "shared resource: 50000000\n", status := 0 }) ∧
    (∀ sched, ∃ ext, Mutex.main create (sched ++ ext) =
      some { stdout := "shared resource: 50000000\n", status := 0 }) ∧
    (∀ sched out, Semaphore.main create sched = some out →
      out = { stdout := "shared resource: 50000000\n", status := 0 }) ∧
    (∀ sched, ∃ ext, Semaphore.main create (sched ++ ext) =
      some { stdout := "shared resource: 50000000\n", status := 0 }) := by
  have hlen : (spawn create THREADS).length = THREADS := by
    rw [spawn_all hall, List.length_replicate]
  have hline : report ((spawn create THREADS).length * ITERATIONS) =
      { stdout := "shared resource: 50000000\n", status := 0 } := by
    rw [hlen]
    decide
  have hm := mutex_main create
  have hs := semaphore_main create
  rw [hline] at hm hs
  exact ⟨hm.1, hm.2, hs.1, hs.2⟩

/-- Witness of C7: every `pthread_create` returns 0. -/
theorem main_prints_total_witness :
    (∀ i, i < THREADS → (fun _ : Nat => (0 : Int)) i = 0) ∧
    ((∀ sched out, Mutex.main (fun _ => 0) sched = some out →
      out = { stdout := "shared resource: 50000000\n", status := 0 }) ∧
    (∀ sched, ∃ ext, Mutex.main (fun _ => 0) (sched ++ ext) =
      some { stdout := "shared resource: 50000000\n", status := 0 }) ∧
    (∀ sched out, Semaphore.main (fun _ => 0) sched = some out →
      out = { stdout := "shared resource: 50000000\n", status := 0 }) ∧
    (∀ sched, ∃ ext, Semaphore.main (fun _ => 0) (sched ++ ext) =
      some { stdout := "shared resource: 50000000\n", status := 0 })) :=
  ⟨fun _ _ => rfl, main_prints_total (fun _ => 0) (fun _ _ => rfl)⟩

/-- C8: under the unsynchronized policy, for every worker count `n ≥ 2` and
every loop bound `m ≥ 1`, some schedule of the load and store steps lets all
workers return with a counter strictly below `n * m`. -/
theorem lost_update (n m : Nat) (hn : 2 ≤ n) (hm : 1 ≤ m) :
    ∃ sched v, harness Policy.unsynchronized n m sched = some v ∧ v < n * m := by
  obtain ⟨k, rfl⟩ : ∃ k, n = k + 2 := ⟨n - 2, by omega⟩
  obtain ⟨j, rfl⟩ : ∃ j, m = j + 1 := ⟨m - 1, by omega⟩
  have hpre : run (j + 1) (start Policy.unsynchronized (k + 2)) [0, 0, 1, 1, 0, 1] =
      { shared := 1, guard := Guard.none,
        workers := { pc := PC.incr, x := 0, reg := 0 } :: { pc := PC.incr, x := 0, reg := 0 } ::
          List.replicate k Worker.start } := by
    simp [run, exec, step, threadStep, Race.threadCode, start, init, Policy.guard, Race.guard,
      List.replicate_succ, Worker.start, ULONG_MOD]
  have hinv : Unsync 1 (j + 1) (run (j + 1) (start Policy.unsynchronized (k + 2))
      [0, 0, 1, 1, 0, 1]) := by
    rw [hpre]
    refine ⟨rfl, ?_, ?_, ?_, ?_⟩
    · intro w hw
      simp only [List.mem_cons, List.mem_replicate] at hw
      rcases hw with rfl | rfl | ⟨-, rfl⟩ <;> simp [Worker.wf, Worker.start]
    · intro w hw
      simp only [List.mem_cons, List.mem_replicate] at hw
      rcases hw with rfl | rfl | ⟨-, rfl⟩ <;> simp [Worker.start]
    · have h1 : Worker.stores { pc := PC.incr, x := 0, reg := 0 } = 1 := rfl
      simp only [State.stores, List.map_cons, List.sum_cons, h1]
      omega
    · intro w hw hpc
      simp only [List.mem_cons, List.mem_replicate] at hw
      rcases hw with rfl | rfl | ⟨-, rfl⟩ <;> simp [Worker.start] at hpc
  obtain ⟨ext, hext⟩ := unsync_completes hinv
  have hfin := unsync_run hinv ext
  rw [← run_append] at hext hfin
  refine ⟨[0, 0, 1, 1, 0, 1] ++ ext, _, harness_of_joined hext, ?_⟩
  have h1 := hfin.bound
  rw [stores_of_joined hfin.wf hext, run_length, start_length] at h1
  omega

/-- Witness of C8: two workers with loop bound one. -/
theorem lost_update_witness :
    (2 ≤ 2 ∧ 1 ≤ 1) ∧
    ∃ sched v, harness Policy.unsynchronized 2 1 sched = some v ∧ v < 2 * 1 :=
  ⟨⟨by decide, by decide⟩, lost_update 2 1 (by decide) (by decide)⟩

/-- C9: the semaphore is created with count 1, and in every state reached by
any schedule its count is at most 1, is 0 exactly when one worker is between
its wait and its signal, and is 1 exactly when none is. -/
theorem semaphore_binary (n m : Nat) (sched : List Nat) :
    (start Policy.semaphore n).guard = Guard.semaphore 1 ∧
    ∃ c, (run m (start Policy.semaphore n) sched).guard = Guard.semaphore c ∧ c ≤ 1 ∧
      (c = 0 ↔ (run m (start Policy.semaphore n) sched).holders = 1) ∧
      (c = 1 ↔ (run m (start Policy.semaphore n) sched).holders = 0) := by
  refine ⟨rfl, ?_⟩
  have hex := (sync_run (sync_start (p := Policy.semaphore) (by decide) n m) sched).excl
  have hpol := run_policy m (start Policy.semaphore n) sched
  generalize run m (start Policy.semaphore n) sched = s at hex hpol
  obtain ⟨sh, g, ws⟩ := s
  cases g with
  | none => simp [Guard.policy, start, init, Policy.guard, Semaphore.guard] at hpol
  | mutex l => simp [Guard.policy, start, init, Policy.guard, Semaphore.guard] at hpol
  | semaphore c =>
    simp only [Guard.free] at hex
    exact ⟨c, rfl, by omega, by omega, by omega⟩

/-- C10: under the mutex policy and under the binary-semaphore policy, a
reachable state in which some worker has not returned has a worker with an
enabled step, and a reachable state in which all workers have returned has the
guard as it was created: mutex unlocked, semaphore count 1. -/
theorem no_deadlock (p : Policy) (hp : p ≠ Policy.unsynchronized) (n m : Nat)
    (sched : List Nat) :
    ((run m (start p n) sched).joined = false →
      ∃ i s', step m (run m (start p n) sched) i = some s') ∧
    ((run m (start p n) sched).joined = true →
      (run m (start p n) sched).guard = p.guard) := by
  have hs := sync_run (sync_start hp n m) sched
  refine ⟨sync_progress hs, ?_⟩
  intro hj
  have hpol : (run m (start p n) sched).guard.policy = p := by
    rw [run_policy]
    exact policy_guard p
  apply guard_of_free hp hpol
  have h0 : (run m (start p n) sched).holders = 0 := by
    simp only [State.joined, List.all_eq_true, decide_eq_true_eq] at hj
    simp only [State.holders, List.countP_eq_zero]
    intro w hw
    simp [Worker.holds, hj w hw]
  have := hs.excl
  omega

/-- Witness of C10: the mutex policy with two workers, first while worker 0
holds the mutex and worker 1 waits for it, then after both have returned. -/
theorem no_deadlock_witness :
    Policy.mutex ≠ Policy.unsynchronized ∧
    (((run 1 (start Policy.mutex 2) [0, 0, 1]).joined = false →
      ∃ i s', step 1 (run 1 (start Policy.mutex 2) [0, 0, 1]) i = some s') ∧
    ((run 1 (start Policy.mutex 2) [0, 0, 1]).joined = true →
      (run 1 (start Policy.mutex 2) [0, 0, 1]).guard = Policy.mutex.guard)) :=
  ⟨by decide, no_deadlock Policy.mutex (by decide) 2 1 [0, 0, 1]⟩

/-! ## Evaluations of the model on small inputs -/

theorem harness_mutex_two :
    harness Policy.mutex 2 1 [0, 1, 0, 0, 1, 0, 0, 0, 1, 1, 1, 1, 1, 1, 0, 1] = some 2 := by
  decide

theorem harness_semaphore_two :
    harness Policy.semaphore 2 1 (List.replicate 7 0 ++ List.replicate 7 1) = some 2 := by
  decide

theorem harness_race_lost :
    harness Policy.unsynchronized 2 1 [0, 1, 0, 1, 0, 1, 0, 1, 0, 1] = some 1 := by
  decide

theorem harness_race_exact :
    harness Policy.unsynchronized 2 1 [0, 0, 0, 0, 0, 1, 1, 1, 1, 1] = some 2 := by
  decide

theorem harness_mutex_waiting :
    harness Policy.mutex 2 1 [0, 0, 1, 1, 1] = Option.none := by
  decide

end Threads
